import Mathlib

/-!
Verification development for the GitHub repository-inspection MCP server
(`src/index.ts`).  The TypeScript source is shallowly embedded: every
definition below mirrors a function or data shape of the source file.
Timestamps and the JSON serialization layer are elided (events and
payloads are modelled structurally); the base64 transport encoding of
file content is abstracted, an entry's `content` field holding the text
that decoding would produce.  The unbounded recursion of the traversal
is embedded with an explicit fuel parameter; all theorems hold for every
sufficient fuel.
-/

namespace ElangMCP

/-- Entry type tags as reported by the hosting API (`item.type` strings
`"file"`, `"dir"`, or anything else such as `"symlink"`/`"submodule"`). -/
inductive EntryType where
  | file
  | dir
  | other
deriving DecidableEq, Repr

/-- One entry of a GitHub contents response: the fields the source
consumes (`name`, `path`, `type`, `size`, `download_url`, `content`). -/
structure Entry where
  name : String
  path : String
  type : EntryType
  size : Nat
  download_url : Option String
  content : Option String
deriving DecidableEq, Repr

/-- Possible outcomes of `octokit.repos.getContent` for a path: a thrown
error, a directory listing (array), or a single entry (non-array). -/
inductive HostResponse where
  | error (msg : String)
  | listing (entries : List Entry)
  | single (e : Entry)
deriving DecidableEq, Repr

/-- The RepositoryHost capability: what the hosting API answers at each
path. -/
def Host : Type := String → HostResponse

/-- The tree produced by traversal: `FileItem` / `DirectoryItem` of the
source (a tagged union, directories carrying ordered children). -/
inductive TreeItem where
  | file (name path : String) (size : Nat) (download_url : Option String) : TreeItem
  | directory (name path : String) (children : List TreeItem) : TreeItem

/-- FileWithContent of the source: `{path, content: string | null}`. -/
structure FileWithContent where
  path : String
  content : Option String
deriving DecidableEq, Repr

/-- JavaScript `String.prototype.trim`, over character lists: drop
whitespace from both ends.  Models the `token.trim()` builtin call. -/
def jsTrim (l : List Char) : List Char :=
  ((l.dropWhile Char.isWhitespace).reverse.dropWhile Char.isWhitespace).reverse

/-- validateGitHubToken: a token is rejected when missing or blank after
trimming (the `undefined`/non-string guards are unrepresentable here,
the tool schema already forcing a string). -/
def validateGitHubToken (token : String) : Bool :=
  !(jsTrim token.toList).isEmpty

mutual

/-- getRepositoryStructure of the source: recursive traversal.  A host
error at any level is caught there and yields `[]`; an array response is
folded entry by entry; a non-array response becomes a single file item
unconditionally.  `fuel` bounds the recursion depth (the source has no
bound; every claim holds for all sufficient fuel). -/
def getRepositoryStructure (host : Host) : Nat → String → List TreeItem
  | 0, _ => []
  | fuel + 1, path =>
    match host path with
    | .error _ => []
    | .listing entries => processEntries host fuel entries
    | .single e => [.file e.name e.path e.size e.download_url]

/-- Loop body of getRepositoryStructure over a directory listing:
directories recurse, files are kept directly, any other entry type is
skipped (no `else` branch in the source). -/
def processEntries (host : Host) : Nat → List Entry → List TreeItem
  | _, [] => []
  | fuel, e :: rest =>
    match e.type with
    | .dir =>
        .directory e.name e.path (getRepositoryStructure host fuel e.path)
          :: processEntries host fuel rest
    | .file =>
        .file e.name e.path e.size e.download_url :: processEntries host fuel rest
    | .other => processEntries host fuel rest

end

/-- getFileContent of the source: fetch one path; return the decoded
content when the response carries a `content` field (only a single,
content-bearing entry does), `null` for an array response or a missing
field, and `null` on any host error (caught locally). -/
def getFileContent (host : Host) (path : String) : Option String :=
  match host path with
  | .error _ => none
  | .listing _ => none
  | .single e => e.content

/-- Progress events, named as in the source; the timestamp field is
elided, the payload fields the claims mention are kept. -/
inductive Event where
  | repo_fetch_started (owner repo : String)
  | repo_fetch_completed (owner repo : String) (fileCount : Nat)
  | repo_fetch_error (owner repo msg : String)
  | file_fetch_started (path : String)
  | file_fetch_completed (path : String) (success : Bool)
  | file_fetch_error (path : String)
deriving DecidableEq, Repr

/-- JavaScript `String.prototype.split` with a one-character separator,
over character lists: `""` splits to `[""]`, separators delimit possibly
empty groups.  Models the `name.split('.')` builtin call. -/
def jsSplit (sep : Char) : List Char → List (List Char)
  | [] => [[]]
  | c :: cs =>
    match jsSplit sep cs with
    | [] => if c = sep then [[], []] else [[c]]
    | g :: gs => if c = sep then [] :: g :: gs else (c :: g) :: gs

/-- fileExt: the source's `item.name.split('.').pop()?.toLowerCase() || ''`.
`split` never returns an empty array, so `pop` always yields the last
group; `|| ''` maps only the already-empty string to itself. -/
def fileExt (name : String) : String :=
  String.mk (((jsSplit '.' name.toList).getLastD []).map Char.toLower)

/-- Extension-filter test of processItems:
`extensions.includes(fileExt) || extensions.includes('*')`. -/
def matchesFilter (extensions : List String) (name : String) : Bool :=
  extensions.contains (fileExt name) || extensions.contains "*"

/-- processItems of the source (the Selective Content Collector): walk
the tree depth-first; for each matching file emit `file_fetch_started`,
fetch, emit `file_fetch_completed` with a success flag, and append a
record regardless of success; recurse into directories.  Returns the
collected records and the emitted events, each in source order. -/
def processItems (host : Host) (extensions : List String) :
    List TreeItem → List FileWithContent × List Event
  | [] => ([], [])
  | .file name path _ _ :: rest =>
    let tail := processItems host extensions rest
    if matchesFilter extensions name then
      let c := getFileContent host path
      (⟨path, c⟩ :: tail.1,
        .file_fetch_started path :: .file_fetch_completed path c.isSome :: tail.2)
    else tail
  | .directory _ _ children :: rest =>
    let sub := processItems host extensions children
    let tail := processItems host extensions rest
    (sub.1 ++ tail.1, sub.2 ++ tail.2)

/-- Response payload of the get_repository_structure tool: the invalid
token error shape, the success shape (structure plus optional files), or
the catch-branch error shape (never produced by the pure embedding,
nothing inside the modelled `try` throws). -/
inductive RepoPayload where
  | invalidToken
  | success (owner repo : String) (tree : List TreeItem)
      (files : Option (List FileWithContent))
  | fetchError (details : String)

/-- Tool handler for get_repository_structure: token gate first (before
any event or host call), then `repo_fetch_started`, traversal from the
root path `''`, content collection only when `includeContent &&
extensions.length > 0`, then `repo_fetch_completed` with
`files?.length || 0`. -/
def getRepoStructureTool (host : Host) (fuel : Nat) (token owner repo : String)
    (includeContent : Bool) (extensions : List String) :
    RepoPayload × List Event :=
  if !validateGitHubToken token then (.invalidToken, [])
  else
    let tree := getRepositoryStructure host fuel ""
    let collected :
        Option (List FileWithContent) × List Event :=
      if includeContent && decide (0 < extensions.length) then
        let pr := processItems host extensions tree
        (some pr.1, pr.2)
      else (none, [])
    let fileCount := (collected.1.map List.length).getD 0
    (.success owner repo tree collected.1,
      .repo_fetch_started owner repo
        :: collected.2 ++ [.repo_fetch_completed owner repo fileCount])

/-- Response payload of the get_file_content tool: invalid token, the
"File not found or content could not be retrieved" error, the success
shape (whose `content` field is `string | null` in the source
interface), or the catch-branch error shape (never produced here). -/
inductive FilePayload where
  | invalidToken
  | notFound
  | success (path : String) (content : Option String)
  | fetchError (details : String)
deriving DecidableEq, Repr

/-- Tool handler for get_file_content: token gate first, then
`file_fetch_started`, the fetch, and either the not-found error payload
with `file_fetch_error`, or the success payload with
`file_fetch_completed` (success flag true). -/
def getFileContentTool (host : Host) (token owner repo path : String) :
    FilePayload × List Event :=
  if !validateGitHubToken token then (.invalidToken, [])
  else
    match getFileContent host path with
    | none =>
      (.notFound, [.file_fetch_started path, .file_fetch_error path])
    | some c =>
      (.success path (some c),
        [.file_fetch_started path, .file_fetch_completed path true])

/-- An SSE observer: id, sink state (an enqueue on a closed controller
throws), and the messages successfully written so far. -/
structure SSEClient where
  id : String
  sinkOpen : Bool
  buffer : List String
deriving DecidableEq, Repr

/-- Serialized form a broadcast event takes on the wire:
`event: ...\ndata: ...\n\n`. -/
def formatSSE (event data : String) : String :=
  "event: " ++ event ++ "\ndata: " ++ data ++ "\n\n"

/-- Broadcast branch of sendSSEMessage (`clientId` null): a bare
`forEach` enqueues into every registry entry with no per-client
try/catch, so a throwing enqueue aborts the loop — clients already
visited keep the message, the failing and later clients get nothing, and
the exception propagates to the caller.  Returns the updated registry
and the propagated error, if any. -/
def sendSSEMessageAll (msg : String) :
    List SSEClient → List SSEClient × Option String
  | [] => ([], none)
  | c :: rest =>
    if c.sinkOpen then
      let tail := sendSSEMessageAll msg rest
      ({ c with buffer := c.buffer ++ [msg] } :: tail.1, tail.2)
    else (c :: rest, some "TypeError")

/-- Targeted branch of sendSSEMessage (`clientId` given): enqueue only
to the first registry entry with the matching id; an absent id is a
silent no-op. -/
def sendSSEMessageTo (cid msg : String) :
    List SSEClient → List SSEClient × Option String
  | [] => ([], none)
  | c :: rest =>
    if c.id = cid then
      if c.sinkOpen then ({ c with buffer := c.buffer ++ [msg] } :: rest, none)
      else (c :: rest, some "TypeError")
    else
      let tail := sendSSEMessageTo cid msg rest
      (c :: tail.1, tail.2)

/-- Interval, in milliseconds, that keepAlive's `setInterval` would use. -/
def keepAliveIntervalMs : Nat := 30000

/-- Comment line keepAlive's tick would enqueue: an SSE comment, carrying
no event name and no data payload. -/
def keepAliveMsg : String := ": keep-alive\n\n"

/-- One tick of keepAlive's `setInterval` callback: the same unguarded
`forEach` enqueue of the keep-alive comment to every client.  The source
defines keepAlive but never invokes it (its own comment `Start keepAlive
function - THIS WAS MISSING` notwithstanding), so no tick ever runs. -/
def keepAliveTick : List SSEClient → List SSEClient × Option String :=
  sendSSEMessageAll keepAliveMsg

/-- Characters after the last occurrence of `sep`, or `none` when `sep`
does not occur: the extension derivation exactly as the specification
sentence describes it ("substring after the last `.` ...; absent if no
`.` present"). -/
def suffixAfterLast (sep : Char) : List Char → Option (List Char)
  | [] => none
  | c :: cs =>
    match suffixAfterLast sep cs with
    | some s => some s
    | none => if c = sep then some cs else none

/-- Extension derivation as described by the specification: substring
after the last dot, lowercased, absent when the name has no dot. -/
def specExtension (name : String) : Option String :=
  (suffixAfterLast '.' name.toList).map (fun s => String.mk (s.map Char.toLower))

/-- Filter matching as the specification describes it: a file matches
when its derived extension is present and in the filter set, or the set
contains the wildcard. -/
def specMatches (extensions : List String) (name : String) : Bool :=
  (match specExtension name with
   | some e => extensions.contains e
   | none => false) || extensions.contains "*"

/-- Flat list of the paths of all FileNodes of a tree, in depth-first
structure order. -/
def dfsFilePaths : List TreeItem → List String
  | [] => []
  | .file _ p _ _ :: rest => p :: dfsFilePaths rest
  | .directory _ _ ch :: rest => dfsFilePaths ch ++ dfsFilePaths rest

/-- Paths of the FileNodes whose name passes the extension filter, in
depth-first structure order. -/
def matchingFilePaths (extensions : List String) : List TreeItem → List String
  | [] => []
  | .file name p _ _ :: rest =>
    if matchesFilter extensions name then p :: matchingFilePaths extensions rest
    else matchingFilePaths extensions rest
  | .directory _ _ ch :: rest =>
    matchingFilePaths extensions ch ++ matchingFilePaths extensions rest

theorem jsSplit_ne_nil (sep : Char) (l : List Char) : jsSplit sep l ≠ [] := by
  cases l with
  | nil => simp [jsSplit]
  | cons c cs =>
    rw [jsSplit]
    rcases jsSplit sep cs with _ | ⟨g, gs⟩ <;> by_cases hc : c = sep <;> simp [hc]

theorem jsSplit_of_not_mem (sep : Char) (l : List Char) (h : sep ∉ l) :
    jsSplit sep l = [l] := by
  induction l with
  | nil => rfl
  | cons c cs ih =>
    rw [List.mem_cons] at h
    push_neg at h
    rw [jsSplit, ih h.2]
    have hc : ¬c = sep := fun hc => h.1 hc.symm
    simp [hc]

theorem jsSplit_two_le (sep : Char) (l : List Char) (h : sep ∈ l) :
    2 ≤ (jsSplit sep l).length := by
  induction l with
  | nil => cases h
  | cons c cs ih =>
    rw [List.mem_cons] at h
    obtain ⟨g, gs, hgg⟩ : ∃ g gs, jsSplit sep cs = g :: gs := by
      rcases hh : jsSplit sep cs with _ | ⟨g, gs⟩
      · exact absurd hh (jsSplit_ne_nil sep cs)
      · exact ⟨g, gs, rfl⟩
    by_cases hc : c = sep
    · simp [jsSplit, hgg, hc]
    · have hmem : sep ∈ cs := by
        rcases h with h | h
        · exact absurd h.symm hc
        · exact h
      have := ih hmem
      rw [hgg] at this
      simp only [jsSplit, hgg, if_neg hc, List.length_cons] at this ⊢
      omega

theorem suffixAfterLast_eq_none_iff (sep : Char) (l : List Char) :
    suffixAfterLast sep l = none ↔ sep ∉ l := by
  induction l with
  | nil => simp [suffixAfterLast]
  | cons c cs ih =>
    simp only [suffixAfterLast, List.mem_cons]
    rcases h : suffixAfterLast sep cs with _ | s
    · have hcs : sep ∉ cs := ih.mp h
      by_cases hc : c = sep
      · subst hc
        simp [hcs]
      · have hsc : ¬sep = c := fun he => hc he.symm
        simp [hc, hcs, hsc]
    · have hmem : sep ∈ cs := by
        by_contra hn
        rw [ih.mpr hn] at h
        cases h
      simp [hmem]

theorem jsSplit_getLastD (sep : Char) (l : List Char) :
    (jsSplit sep l).getLastD [] = (suffixAfterLast sep l).getD l := by
  induction l with
  | nil => rfl
  | cons c cs ih =>
    obtain ⟨g, gs, hgg⟩ : ∃ g gs, jsSplit sep cs = g :: gs := by
      rcases hh : jsSplit sep cs with _ | ⟨g, gs⟩
      · exact absurd hh (jsSplit_ne_nil sep cs)
      · exact ⟨g, gs, rfl⟩
    rw [hgg] at ih
    simp only [jsSplit, hgg, suffixAfterLast]
    by_cases hc : c = sep
    · rw [if_pos hc]
      have hl : ([] :: g :: gs).getLastD ([] : List Char) = (g :: gs).getLastD [] := by
        rw [List.getLastD_eq_getLast?, List.getLastD_eq_getLast?, List.getLast?_cons_cons]
      rcases h : suffixAfterLast sep cs with _ | s
      · rw [h, Option.getD_none] at ih
        rw [hl, ih]
        simp [hc]
      · rw [h, Option.getD_some] at ih
        rw [hl, ih]
        simp
    · rw [if_neg hc]
      rcases h : suffixAfterLast sep cs with _ | s
      · have hnm : sep ∉ cs := (suffixAfterLast_eq_none_iff sep cs).mp h
        have hsingle : jsSplit sep cs = [cs] := jsSplit_of_not_mem sep cs hnm
        rw [hgg] at hsingle
        injection hsingle with hg hgs
        subst hg; subst hgs
        simp [hc]
      · have hmem : sep ∈ cs := by
          by_contra hn
          rw [(suffixAfterLast_eq_none_iff sep cs).mpr hn] at h
          cases h
        have hlen := jsSplit_two_le sep cs hmem
        rw [hgg] at hlen
        obtain ⟨g2, gs2, hgs⟩ : ∃ g2 gs2, gs = g2 :: gs2 := by
          rcases gs with _ | ⟨g2, gs2⟩
          · exfalso
            simp at hlen
          · exact ⟨g2, gs2, rfl⟩
        subst hgs
        rw [h, Option.getD_some] at ih
        rw [List.getLastD_eq_getLast?, List.getLast?_cons_cons] at ih
        rw [List.getLastD_eq_getLast?, List.getLast?_cons_cons, ih]
        simp

/-- C3: the claim derives the extension as "substring after the last
dot, lowercased, absent when the name has no dot" and says matching
follows that derivation.  The code disagrees on dotless names: for a
file named `md`, `split('.').pop()` yields the whole name, so the
derived extension is `"md"` (not absent) and the file matches filter
`["md"]`, while the claimed derivation yields no extension and no
match. -/
theorem c3_counterexample :
    matchesFilter ["md"] "md" = true
      ∧ specMatches ["md"] "md" = false
      ∧ specExtension "md" = none := by
  exact ⟨rfl, rfl, rfl⟩

/-- C3 (amended): the derived extension is the lowercased substring
after the last dot when the name contains a dot, and the lowercased
whole name when it does not; matching against the filter set is
case-insensitive on that suffix, so README.MD matches the filter
["md"]. -/
theorem c3_extension_derivation (name : String) :
    fileExt name
      = String.mk (((suffixAfterLast '.' name.toList).getD name.toList).map
          Char.toLower)
      ∧ matchesFilter ["md"] "README.MD" = true := by
  constructor
  · unfold fileExt
    rw [jsSplit_getLastD]
  · rfl

theorem matchesFilter_wildcard (name : String) : matchesFilter ["*"] name = true := by
  unfold matchesFilter
  rw [show (["*"] : List String).contains "*" = true from rfl, Bool.or_true]

/-- C5: with the wildcard filter, collection produces exactly one
ContentRecord per FileNode of the input tree, in depth-first structure
order, each carrying whatever the content fetch produced (possibly
nothing) — records are appended regardless of fetch success. -/
theorem c5_wildcard_one_record_per_file (host : Host) (items : List TreeItem) :
    (processItems host ["*"] items).1
      = (dfsFilePaths items).map
          (fun p => (⟨p, getFileContent host p⟩ : FileWithContent)) := by
  induction items using processItems.induct host ["*"] with
  | case1 => simp [processItems, dfsFilePaths]
  | case2 name path size du rest hm ih =>
    simp [processItems, dfsFilePaths, hm, ih]
  | case3 name path size du rest hm ih =>
    exact absurd (matchesFilter_wildcard name) hm
  | case4 name path children rest ih1 ih2 =>
    simp [processItems, dfsFilePaths, ih1, ih2]

/-- C6: the claim says the Content Fetcher itself emits
file_fetch_started/completed around its host call, so that started
fires twice per collected file.  In the code getFileContent emits
nothing: collecting a single matching file produces exactly one
file_fetch_started (the collector's own), not two. -/
theorem c6_counterexample :
    (processItems
        (fun _ => .single ⟨"a.txt", "a.txt", EntryType.file, 1, none, some "hi"⟩)
        ["*"] [.file "a.txt" "a.txt" 1 none]).2
      = [Event.file_fetch_started "a.txt", Event.file_fetch_completed "a.txt" true]
    ∧ ((processItems
        (fun _ => .single ⟨"a.txt", "a.txt", EntryType.file, 1, none, some "hi"⟩)
        ["*"] [.file "a.txt" "a.txt" 1 none]).2.countP
          (fun e => match e with | .file_fetch_started _ => true | _ => false)) ≠ 2 := by
  constructor
  · simp [processItems, matchesFilter, getFileContent]
  · rw [show (processItems
        (fun _ => .single ⟨"a.txt", "a.txt", EntryType.file, 1, none, some "hi"⟩)
        ["*"] [.file "a.txt" "a.txt" 1 none]).2
      = [Event.file_fetch_started "a.txt", Event.file_fetch_completed "a.txt" true]
      from by simp [processItems, matchesFilter, getFileContent]]
    decide

/-- C6 (amended): the Content Fetcher emits no events itself; during
selective content collection the collector emits file_fetch_started
exactly once per included file, immediately followed by
file_fetch_completed carrying a success flag equal to "fetched content
is present" — so started fires once, not twice, per collected file. -/
theorem c6_collector_emits_once_per_file (host : Host) (extensions : List String)
    (items : List TreeItem) :
    (processItems host extensions items).2
      = ((matchingFilePaths extensions items).map (fun p =>
          [Event.file_fetch_started p,
           Event.file_fetch_completed p (getFileContent host p).isSome])).flatten := by
  induction items using processItems.induct host extensions with
  | case1 => simp [processItems, matchingFilePaths]
  | case2 name path size du rest hm ih =>
    simp [processItems, matchingFilePaths, hm, ih]
  | case3 name path size du rest hm ih =>
    simp [processItems, matchingFilePaths, hm, ih]
  | case4 name path children rest ih1 ih2 =>
    simp [processItems, matchingFilePaths, ih1, ih2]

/-- C4: with a valid token, `includeContent = true` and an empty
extension-filter list, the collector is never invoked and the response
carries no `files` field at all (the `files` component is `none`, not an
empty list): the gate is `includeContent && extensions.length > 0`. -/
theorem c4_empty_filter_skips_collection (host : Host) (fuel : Nat)
    (token owner repo : String) (h : validateGitHubToken token = true) :
    getRepoStructureTool host fuel token owner repo true []
      = (.success owner repo (getRepositoryStructure host fuel "") none,
         [.repo_fetch_started owner repo, .repo_fetch_completed owner repo 0]) := by
  simp [getRepoStructureTool, h]

theorem c4_witness :
    validateGitHubToken "t" = true
    ∧ getRepoStructureTool (fun _ => .listing []) 1 "t" "o" "r" true []
        = (.success "o" "r" (getRepositoryStructure (fun _ => .listing []) 1 "") none,
           [.repo_fetch_started "o" "r", .repo_fetch_completed "o" "r" 0]) :=
  ⟨rfl, c4_empty_filter_skips_collection (fun _ => .listing []) 1 "t" "o" "r" rfl⟩

/-- C8: with an empty-string credential, both tool operations return the
invalid-token error payload with no event published; the result does not
depend on the host at all (the statement is quantified over every host),
so no host call is consulted before the rejection. -/
theorem c8_empty_credential_rejected_first (host : Host) (fuel : Nat)
    (owner repo path : String) (includeContent : Bool) (extensions : List String) :
    getRepoStructureTool host fuel "" owner repo includeContent extensions
      = (.invalidToken, [])
    ∧ getFileContentTool host "" owner repo path = (.invalidToken, []) := by
  have hv : validateGitHubToken "" = false := rfl
  constructor <;> simp [getRepoStructureTool, getFileContentTool, hv]

/-- C7: with a valid token, whenever the content fetch yields nothing —
in particular whenever the host reports the path as a directory, i.e.
answers with a listing — the get_file_content operation returns the
"not found" error payload and emits file_fetch_error; and a success
payload never carries null content. -/
theorem c7_no_content_is_not_found (host : Host)
    (token owner repo path : String) (h : validateGitHubToken token = true) :
    (getFileContent host path = none →
      getFileContentTool host token owner repo path
        = (.notFound, [.file_fetch_started path, .file_fetch_error path]))
    ∧ (∀ entries, host path = .listing entries → getFileContent host path = none)
    ∧ (∀ p oc, (getFileContentTool host token owner repo path).1 = .success p oc
        → ∃ c, oc = some c) := by
  refine ⟨fun hn => ?_, fun entries he => ?_, fun p oc hs => ?_⟩
  · simp [getFileContentTool, h, hn]
  · simp [getFileContent, he]
  · rcases hg : getFileContent host path with _ | c
    · simp [getFileContentTool, h, hg] at hs
    · simp [getFileContentTool, h, hg] at hs
      exact ⟨c, hs.2.symm⟩

theorem c7_witness :
    validateGitHubToken "t" = true
    ∧ getFileContent (fun _ => .listing []) "d" = none
    ∧ getFileContentTool (fun _ => .listing []) "t" "o" "r" "d"
        = (.notFound, [.file_fetch_started "d", .file_fetch_error "d"]) :=
  ⟨rfl,
    (c7_no_content_is_not_found (fun _ => .listing []) "t" "o" "r" "d" rfl).2.1 [] rfl,
    (c7_no_content_is_not_found (fun _ => .listing []) "t" "o" "r" "d" rfl).1
      ((c7_no_content_is_not_found (fun _ => .listing []) "t" "o" "r" "d" rfl).2.1 [] rfl)⟩

/-- C2: the claim says a failing sink neither prevents delivery to the
other observers nor surfaces to the publisher.  In the code the
broadcast is a bare `forEach` with no per-client guard: with a closed
first sink and an open second one, the exception propagates ("TypeError"
reaches the publisher) and the second observer's buffer stays empty — no
delivery was even attempted. -/
theorem c2_counterexample :
    (sendSSEMessageAll "m" [⟨"c1", false, []⟩, ⟨"c2", true, []⟩]).2 = some "TypeError"
    ∧ (sendSSEMessageAll "m" [⟨"c1", false, []⟩, ⟨"c2", true, []⟩]).1.map SSEClient.buffer
        = [[], []] :=
  ⟨rfl, rfl⟩

/-- C2 (amended): a failure to write to one observer's sink aborts the
broadcast — observers before the first failing sink in registry order
receive the event, the failing one and every later observer do not, and
the error propagates to the publisher. -/
theorem c2_broadcast_aborts_at_failure (msg : String) (good : List SSEClient)
    (bad : SSEClient) (rest : List SSEClient)
    (hg : ∀ c ∈ good, c.sinkOpen = true) (hb : bad.sinkOpen = false) :
    sendSSEMessageAll msg (good ++ bad :: rest)
      = (good.map (fun c => { c with buffer := c.buffer ++ [msg] }) ++ bad :: rest,
         some "TypeError") := by
  induction good with
  | nil => simp [sendSSEMessageAll, hb]
  | cons c cs ih =>
    have hc : c.sinkOpen = true := hg c (by simp)
    have ih2 := ih (fun x hx => hg x (by simp [hx]))
    simp [sendSSEMessageAll, hc, ih2]

theorem c2_witness :
    (∀ c ∈ [(⟨"g", true, []⟩ : SSEClient)], c.sinkOpen = true)
    ∧ (⟨"b", false, []⟩ : SSEClient).sinkOpen = false
    ∧ sendSSEMessageAll "m" ([(⟨"g", true, []⟩ : SSEClient)] ++ ⟨"b", false, []⟩ :: [])
        = ([(⟨"g", true, ["m"]⟩ : SSEClient)] ++ (⟨"b", false, []⟩ : SSEClient) :: [],
           some "TypeError") :=
  ⟨by simp, rfl,
    c2_broadcast_aborts_at_failure "m" [⟨"g", true, []⟩] ⟨"b", false, []⟩ []
      (by simp) rfl⟩

/-- C10: entries whose host-reported type is neither file nor dir are
silently dropped by the traversal loop: processing a listing equals
processing the listing with such entries filtered away, each surviving
entry contributes exactly one node (so nothing downstream counts the
dropped ones), and a listing answer is exactly what the traversal
processes. -/
theorem c10_other_entries_omitted (host : Host) (fuel : Nat)
    (entries : List Entry) :
    processEntries host fuel entries
      = processEntries host fuel (entries.filter (fun e => e.type != EntryType.other))
    ∧ (processEntries host fuel entries).length
        = (entries.filter (fun e => e.type != EntryType.other)).length
    ∧ (∀ path, host path = .listing entries →
        getRepositoryStructure host (fuel + 1) path = processEntries host fuel entries) := by
  refine ⟨?_, ?_, fun path hp => by simp [getRepositoryStructure, hp]⟩
  · induction entries with
    | nil => simp [processEntries]
    | cons e es ih =>
      cases he : e.type <;> simp [processEntries, he, ih]
  · induction entries with
    | nil => simp [processEntries]
    | cons e es ih =>
      cases he : e.type <;> simp [processEntries, he, ih]

theorem c10_witness :
    (fun _ => HostResponse.listing
        [⟨"s", "s", EntryType.other, 0, none, none⟩,
         ⟨"a", "a", EntryType.file, 1, none, none⟩] : Host) "p"
      = HostResponse.listing
          [⟨"s", "s", EntryType.other, 0, none, none⟩,
           ⟨"a", "a", EntryType.file, 1, none, none⟩]
    ∧ getRepositoryStructure
        (fun _ => HostResponse.listing
          [⟨"s", "s", EntryType.other, 0, none, none⟩,
           ⟨"a", "a", EntryType.file, 1, none, none⟩]) 1 "p"
        = processEntries
            (fun _ => HostResponse.listing
              [⟨"s", "s", EntryType.other, 0, none, none⟩,
               ⟨"a", "a", EntryType.file, 1, none, none⟩]) 0
            [⟨"s", "s", EntryType.other, 0, none, none⟩,
             ⟨"a", "a", EntryType.file, 1, none, none⟩] :=
  ⟨rfl,
    (c10_other_entries_omitted
      (fun _ => HostResponse.listing
        [⟨"s", "s", EntryType.other, 0, none, none⟩,
         ⟨"a", "a", EntryType.file, 1, none, none⟩]) 0
      [⟨"s", "s", EntryType.other, 0, none, none⟩,
       ⟨"a", "a", EntryType.file, 1, none, none⟩]).2.2 "p" rfl⟩

theorem sendSSEMessageAll_all_open (msg : String) (clients : List SSEClient)
    (h : ∀ c ∈ clients, c.sinkOpen = true) :
    sendSSEMessageAll msg clients
      = (clients.map (fun c => { c with buffer := c.buffer ++ [msg] }), none) := by
  induction clients with
  | nil => rfl
  | cons c cs ih =>
    have hc : c.sinkOpen = true := h c (by simp)
    rw [sendSSEMessageAll, ih (fun x hx => h x (by simp [hx]))]
    simp [hc]

/-- C9: what one tick of the keepAlive interval callback would do — send
the payload-free keep-alive comment to every connected observer, on a
30000 ms (30 s) interval.  The source, however, never invokes keepAlive
(no call site exists, despite its own `THIS WAS MISSING` comment), so no
tick ever runs and no idle signal is ever sent. -/
theorem c9_keepAlive_tick_behavior (clients : List SSEClient)
    (h : ∀ c ∈ clients, c.sinkOpen = true) :
    keepAliveIntervalMs = 30000
    ∧ keepAliveMsg = ": keep-alive\n\n"
    ∧ keepAliveTick clients
        = (clients.map (fun c => { c with buffer := c.buffer ++ [keepAliveMsg] }), none) :=
  ⟨rfl, rfl, by rw [keepAliveTick, sendSSEMessageAll_all_open keepAliveMsg clients h]⟩

theorem c9_witness :
    (∀ c ∈ [(⟨"a", true, []⟩ : SSEClient)], c.sinkOpen = true)
    ∧ (keepAliveIntervalMs = 30000
       ∧ keepAliveMsg = ": keep-alive\n\n"
       ∧ keepAliveTick [(⟨"a", true, []⟩ : SSEClient)]
           = ([⟨"a", true, [": keep-alive\n\n"]⟩], none)) :=
  ⟨by simp, c9_keepAlive_tick_behavior [⟨"a", true, []⟩] (by simp)⟩

/-- C1: a host error at any path is absorbed at that recursion level —
that traversal call returns the empty sequence; a directory entry whose
subtree fails still appears (with empty children) while its siblings are
processed normally; and the top-level tool call completes with a success
payload whose event trace still ends in repo_fetch_completed. -/
theorem c1_host_error_truncates_branch (host : Host) (fuel fuel2 : Nat)
    (path msg : String) (e : Entry) (rest : List Entry)
    (token owner repo : String) (includeContent : Bool) (extensions : List String)
    (herr : host path = .error msg) (htok : validateGitHubToken token = true)
    (hdir : e.type = .dir) (hpath : e.path = path) :
    getRepositoryStructure host (fuel + 1) path = []
    ∧ processEntries host (fuel + 1) (e :: rest)
        = .directory e.name e.path [] :: processEntries host (fuel + 1) rest
    ∧ (∃ tree files,
        (getRepoStructureTool host fuel2 token owner repo includeContent extensions).1
          = .success owner repo tree files)
    ∧ (∃ n,
        ((getRepoStructureTool host fuel2 token owner repo includeContent extensions).2).getLast?
          = some (.repo_fetch_completed owner repo n)) := by
  have h1 : getRepositoryStructure host (fuel + 1) path = [] := by
    simp [getRepositoryStructure, herr]
  refine ⟨h1, ?_, ?_, ?_⟩
  · rw [processEntries]
    simp [hdir, hpath, h1]
  · simp [getRepoStructureTool, htok]
  · simp [getRepoStructureTool, htok]
    exact ⟨_, by rw [← List.cons_append, List.getLast?_concat]⟩

theorem c1_witness :
    (fun _ => HostResponse.error "boom" : Host) "p" = HostResponse.error "boom"
    ∧ validateGitHubToken "t" = true
    ∧ (getRepositoryStructure (fun _ => HostResponse.error "boom") 1 "p" = []
       ∧ processEntries (fun _ => HostResponse.error "boom") 1
           (⟨"d", "p", EntryType.dir, 0, none, none⟩ :: [])
           = .directory "d" "p" []
               :: processEntries (fun _ => HostResponse.error "boom") 1 []
       ∧ (∃ tree files,
           (getRepoStructureTool (fun _ => HostResponse.error "boom") 0 "t" "o" "r"
             false []).1 = .success "o" "r" tree files)
       ∧ (∃ n,
           ((getRepoStructureTool (fun _ => HostResponse.error "boom") 0 "t" "o" "r"
             false []).2).getLast? = some (.repo_fetch_completed "o" "r" n))) :=
  ⟨rfl, rfl,
    c1_host_error_truncates_branch (fun _ => HostResponse.error "boom") 0 0 "p" "boom"
      ⟨"d", "p", EntryType.dir, 0, none, none⟩ [] "t" "o" "r" false []
      rfl rfl rfl rfl⟩

end ElangMCP
